import Mathlib

/-!
Verification of the cache engine of the `eve_online` repository.

The development shallowly embeds the Rust sources:
  * `src/db/src/station.rs` — `StationCache` (`fetch`, `insert`), `StationEntry`
  * `src/db/src/station/storage.rs` — `StationCache::{load, save}`
  * `src/db/src/item_material/insert.rs` — `ItemMaterialCache::insert`
  * `src/db/src/id_name/storage.rs` — `IdNameCache::load`
  * `src/db_v2/src/item.rs` — `ItemCache` (`handle`, `get`, `set`, `cnc_listener`)

A Rust `HashMap<u32, V>` is modelled as an association list `List (Nat × V)`
together with lookup/insert operations that replace in place.  The map's
iteration order is arbitrary in Rust, so every statement about saving a table
quantifies over permutations of the entry sequence.  `f32` fields are only
ever compared for equality by the code under study, so they are modelled as
discrete scalars.
-/

namespace Cachem


/-- Model of `HashMap<u32, V>`: an association list of key/value pairs. -/
abbrev Table (V : Type) := List (Nat × V)

/-- Lookup, modelling `HashMap::get`: the value stored under `k`, if any (first match wins). -/
def hmLookup {V : Type} : Table V → Nat → Option V
  | [], _ => none
  | p :: rest, k => if p.1 = k then some p.2 else hmLookup rest k

/-- Insertion, modelling `HashMap::insert`: replace the entry under `k` in place, or append a new one. -/
def hmInsert {V : Type} : Table V → Nat → V → Table V
  | [], k, v => [(k, v)]
  | p :: rest, k, v => if p.1 = k then (k, v) :: rest else p :: hmInsert rest k v

/-- The key set of a table, in iteration order. -/
def hmKeys {V : Type} (m : Table V) : List Nat := m.map Prod.fst

/-! ## Insert-Merge Engine

`StationCache::insert` (src/db/src/station.rs, lines 34-59) and
`ItemMaterialCache::insert` (src/db/src/item_material/insert.rs, lines 11-36)
are the same algorithm instantiated at different record types, differing only
in the key projection (`station_id` resp. `item_id`).  We embed it once,
parametrised by the record type `V` and the key projection. -/

/-- One iteration of the `while let Some(x) = data.pop()` loop body:
`old_data.entry(x.key).and_modify(|entry| if *entry != x { changes += 1; *entry = x })
.or_insert({ changes += 1; x })`.  Rust evaluates the argument of `or_insert`
eagerly, so the block `{ changes += 1; x }` runs on every iteration whether or
not the entry is vacant: the counter gains one unconditionally, plus one more
from `and_modify` when an occupied entry is actually modified.  Only for a
vacant entry is the eagerly built value also inserted. -/
def mergeStep {V : Type} [DecidableEq V] (key : V → Nat)
    (acc : Table V × Nat) (x : V) : Table V × Nat :=
  match hmLookup acc.1 (key x) with
  | some entry =>
      if entry ≠ x then (hmInsert acc.1 (key x) x, acc.2 + 2)
      else (acc.1, acc.2 + 1)
  | none => (hmInsert acc.1 (key x) x, acc.2 + 1)

/-- The whole `while let Some(x) = data.pop()` loop: `Vec::pop` removes from the
back of the vector, so the batch is processed in reverse listed order. -/
def mergeLoop {V : Type} [DecidableEq V] (key : V → Nat)
    (t : Table V) (data : List V) : Table V × Nat :=
  data.reverse.foldl (mergeStep key) (t, 0)

/-- Result of one insert-merge call: the table afterwards, the change count,
and whether the updated map was swapped into the shared structure (the
`if changes > 0 { *self.0.write().await = old_data }` branch, which is what
schedules persistence of the new state). -/
structure InsertResult (V : Type) where
  table : Table V
  changes : Nat
  swapped : Bool
  deriving DecidableEq, Repr

/-- The generic insert-merge engine: clone the table, run the merge loop on the
clone, and swap the clone in only when at least one entry actually changed. -/
def insertMerge {V : Type} [DecidableEq V] (key : V → Nat)
    (t : Table V) (data : List V) : InsertResult V :=
  let r := mergeLoop key t data
  if r.2 > 0 then ⟨r.1, r.2, true⟩ else ⟨t, r.2, false⟩

/-! ## Concrete record types and caches -/

/-- Record type `StationEntry` from src/db/src/station.rs.  `security: f32` is modelled as
a discrete scalar: the code only ever compares it for equality. -/
structure StationEntry where
  station_id : Nat
  region_id : Nat
  system_id : Nat
  security : Nat
  deriving DecidableEq, Repr

/-- Acknowledgement type `EmptyResponse` from the cachem crate: a unit-like acknowledgement value. -/
structure EmptyResponse where
  deriving DecidableEq, Repr

/-- Embedding of `StationCache::fetch` (src/db/src/station.rs, lines 20-27): read the table,
clone the matching entry, or answer `EmptyResponse` when the key is absent.
The table itself is only read, never modified. -/
def StationCache.fetch (t : Table StationEntry) (input : Nat) :
    Except EmptyResponse StationEntry :=
  match hmLookup t input with
  | some x => Except.ok x
  | none => Except.error ⟨⟩

/-- Embedding of `StationCache::insert` (src/db/src/station.rs, lines 34-59): the generic
insert-merge engine keyed by `station_id`. -/
def StationCache.insert (t : Table StationEntry) (input : List StationEntry) :
    InsertResult StationEntry :=
  insertMerge StationEntry.station_id t input

/-! ## Persistence layer (src/db/src/station/storage.rs, src/db/src/id_name/storage.rs) -/

/-- Rebuilding the map from a decoded entry sequence:
`for entry in entries { map.insert(entry.station_id, entry) }`, generic in the
key projection. -/
def loadEntries {V : Type} (key : V → Nat) (entries : List V) : Table V :=
  entries.foldl (fun m e => hmInsert m (key e) e) []

/-- Embedding of `StationCache::load` (src/db/src/station/storage.rs, lines 14-26): a
successful decode replaces the table with the rebuilt map; a failed decode
leaves the table as it is (empty at startup, since `StationCache` derives
`Default`); either way the function returns `Ok(())` (the Boolean). -/
def StationCache.load (t : Table StationEntry)
    (r : Except String (List StationEntry)) : Table StationEntry × Bool :=
  match r with
  | Except.ok entries => (loadEntries StationEntry.station_id entries, true)
  | Except.error _ => (t, true)

/-- Embedding of `StationCache::save` (src/db/src/station/storage.rs, lines 28-42): collect
every stored record into one sequence.  `HashMap` iteration order is
arbitrary, so theorems about saving quantify over permutations of this
sequence. -/
def StationCache.save (t : Table StationEntry) : List StationEntry :=
  t.map Prod.snd

/-- Modelled from the spec: a record of the id-to-name index cache ("an
id→name pair"); its struct declaration is not under src/, and only its
`item_id` key field is used by `IdNameCache::load`. -/
structure IdNameEntry where
  item_id : Nat
  name : String
  deriving DecidableEq, Repr

/-- Embedding of `IdNameCache::load` (src/db/src/id_name/storage.rs, lines 15-28): a
successful decode produces the rebuilt map; a failed decode produces
`IdNameCache::default()`, the empty table; either way the result is `Ok`. -/
def IdNameCache.load (r : Except String (List IdNameEntry)) :
    Table IdNameEntry × Bool :=
  match r with
  | Except.ok entries => (loadEntries IdNameEntry.item_id entries, true)
  | Except.error _ => ([], true)

/-! ## db_v2 ItemCache (src/db_v2/src/item.rs) -/

/-- Record type `ItemEntry` from src/db_v2/src/item.rs.  `volume: f32` is modelled as a
discrete scalar: the code only ever compares it for equality. -/
structure ItemEntry where
  category_id : Nat
  group_id : Nat
  item_id : Nat
  volume : Nat
  name : String
  description : String
  deriving DecidableEq, Repr

/-- Embedding of `ItemCache::get` (src/db_v2/src/item.rs, lines 94-101): read the table and
clone the matching entry, if any. -/
def ItemCache.get (t : Table ItemEntry) (idx : Nat) : Option ItemEntry :=
  hmLookup t idx

/-- Embedding of `ItemCache::set` (src/db_v2/src/item.rs, lines 109-115): unconditionally
insert the value under the key — no diff against the stored entry. -/
def ItemCache.set (t : Table ItemEntry) (idx : Nat) (val : ItemEntry) :
    Table ItemEntry :=
  hmInsert t idx val

/-- Embedding of `ItemCache::keys` (src/db_v2/src/item.rs, lines 122-130). -/
def ItemCache.keysOf (t : Table ItemEntry) : List Nat :=
  hmKeys t

/-- The `Command::Set` arm of `ItemCache::handle` (src/db_v2/src/item.rs,
lines 52-58): decode key and value, `self.set(key, val).await`, then
`self.save().await` — the save is unconditional.  The Boolean records whether
`save()` (a disk write of the snapshot) was called during the request. -/
def ItemCache.handleSet (t : Table ItemEntry) (key : Nat) (val : ItemEntry) :
    Table ItemEntry × Bool :=
  (ItemCache.set t key val, true)

/-! ## C8: the cnc listener -/

/-- The v2 `Command` vocabulary (Get, MGet, Set, MSet, Keys, Save): the fixed
action set given by the spec and matched on by `ItemCache::handle` and
`ItemCache::cnc_listener`; the enum declaration itself lives in the cachem
crate. -/
inductive Command
  | Get
  | MGet
  | Set
  | MSet
  | Keys
  | Save
  deriving DecidableEq, Repr

/-- One observed signal in `ItemCache::cnc_listener` (src/db_v2/src/item.rs,
lines 74-85): `Command::Save` triggers `self.save()`, which only reads the
table; any other value is logged as invalid and ignored.  The result pairs
the table afterwards with whether `save()` was called. -/
def ItemCache.cncStep (t : Table ItemEntry) (cmd : Command) :
    Table ItemEntry × Bool :=
  match cmd with
  | Command.Save => (t, true)
  | _ => (t, false)

/-! ## C9: the key invariant of reachable station tables -/

/-- The operations that produce station-cache states: decoding a snapshot
(`load`, possibly with a failing read) and merging a batch (`insert`). -/
inductive StationOp
  | load (r : Except String (List StationEntry))
  | insert (batch : List StationEntry)

/-- Apply one operation to the station table. -/
def StationCache.applyOp (t : Table StationEntry) : StationOp → Table StationEntry
  | StationOp.load r => (StationCache.load t r).1
  | StationOp.insert batch => (StationCache.insert t batch).table

/-- The station table reached from the default empty table by a sequence of
load and insert operations. -/
def StationCache.run (ops : List StationOp) : Table StationEntry :=
  ops.foldl StationCache.applyOp []

/-- The table invariant: every key equals the key field of its record. -/
def KeyWF {V : Type} (key : V → Nat) (t : Table V) : Prop :=
  ∀ p ∈ t, p.1 = key p.2

/-! ## Basic lemmas about the map model -/

theorem hmLookup_hmInsert_self {V : Type} (m : Table V) (k : Nat) (v : V) :
    hmLookup (hmInsert m k v) k = some v := by
  induction m with
  | nil => simp [hmInsert, hmLookup]
  | cons p rest ih =>
      by_cases h : p.1 = k
      · simp [hmInsert, h, hmLookup]
      · simp [hmInsert, h, hmLookup, ih]

theorem hmLookup_hmInsert_ne {V : Type} (m : Table V) (k k' : Nat) (v : V)
    (h : k' ≠ k) : hmLookup (hmInsert m k v) k' = hmLookup m k' := by
  have hk : ¬ k = k' := fun e => h e.symm
  induction m with
  | nil => simp [hmInsert, hmLookup, hk]
  | cons p rest ih =>
      by_cases hp : p.1 = k
      · subst hp
        simp [hmInsert, hmLookup, hk]
      · simp [hmInsert, hp, hmLookup, ih]

/-- A merge step never decreases the change counter. -/
theorem mergeStep_changes_le {V : Type} [DecidableEq V] (key : V → Nat)
    (acc : Table V × Nat) (x : V) : acc.2 ≤ (mergeStep key acc x).2 := by
  unfold mergeStep
  cases hmLookup acc.1 (key x) with
  | none => simp
  | some entry =>
      by_cases h : entry = x <;> simp [h]

/-- A merge step that does not increment the counter leaves the state alone
(vacuously so: the eager `or_insert` argument increments on every iteration). -/
theorem mergeStep_eq_of_changes_eq {V : Type} [DecidableEq V] (key : V → Nat)
    (acc : Table V × Nat) (x : V) (h : (mergeStep key acc x).2 = acc.2) :
    mergeStep key acc x = acc := by
  exfalso
  cases hl : hmLookup acc.1 (key x) with
  | none =>
      rw [show (mergeStep key acc x).2 = acc.2 + 1 from by
        simp [mergeStep, hl]] at h
      omega
  | some entry =>
      by_cases he : entry = x
      · rw [show (mergeStep key acc x).2 = acc.2 + 1 from by
          simp [mergeStep, hl, he]] at h
        omega
      · rw [show (mergeStep key acc x).2 = acc.2 + 2 from by
          simp [mergeStep, hl, he]] at h
        omega

/-- Every merge step increments the counter by at least one: the `or_insert`
argument is evaluated eagerly, so even an untouched occupied entry costs one
increment. -/
theorem mergeStep_changes_succ_le {V : Type} [DecidableEq V] (key : V → Nat)
    (acc : Table V × Nat) (x : V) : acc.2 + 1 ≤ (mergeStep key acc x).2 := by
  cases hl : hmLookup acc.1 (key x) with
  | none =>
      rw [show (mergeStep key acc x).2 = acc.2 + 1 from by
        simp [mergeStep, hl]]
  | some entry =>
      by_cases he : entry = x
      · rw [show (mergeStep key acc x).2 = acc.2 + 1 from by
          simp [mergeStep, hl, he]]
      · rw [show (mergeStep key acc x).2 = acc.2 + 2 from by
          simp [mergeStep, hl, he]]
        omega

/-- The merge loop counts at least one change per processed entry, whatever
the table holds. -/
theorem foldl_mergeStep_changes_ge_length {V : Type} [DecidableEq V]
    (key : V → Nat) (l : List V) :
    ∀ acc : Table V × Nat, acc.2 + l.length ≤ (l.foldl (mergeStep key) acc).2 := by
  induction l with
  | nil =>
      intro acc
      simp
  | cons a rest ih =>
      intro acc
      rw [List.foldl_cons]
      have h1 := mergeStep_changes_succ_le key acc a
      have h2 := ih (mergeStep key acc a)
      simp only [List.length_cons]
      omega

/-! ## C1, C2, C7: properties of the insert-merge engine -/

/-- C1, evaluated at the failing input: the spec requires that a non-empty
batch whose entries all equal the stored ones reports zero changes and
triggers no persistence, but the eagerly evaluated `or_insert` argument
`{ changes += 1; x }` runs on every iteration, so re-submitting the identical
station entry reports one change and performs the map swap (installing a
content-equal clone) — the idempotent-merge optimization the code's own
comment ("there where some changes") and the spec describe is dead code. -/
theorem insert_identical_batch_counts_change :
    hmLookup [((1 : Nat), (⟨1, 10, 100, 5⟩ : StationEntry))] 1
      = some ⟨1, 10, 100, 5⟩ ∧
    (StationCache.insert [(1, ⟨1, 10, 100, 5⟩)] [⟨1, 10, 100, 5⟩]).changes = 1 ∧
    (StationCache.insert [(1, ⟨1, 10, 100, 5⟩)] [⟨1, 10, 100, 5⟩]).swapped = true ∧
    (StationCache.insert [(1, ⟨1, 10, 100, 5⟩)] [⟨1, 10, 100, 5⟩]).table
      = [(1, ⟨1, 10, 100, 5⟩)] :=
  ⟨by decide, by decide, by decide, by decide⟩

/-- C7: merging a single-entry batch whose key is absent from the table inserts
the entry and reports a change count of exactly one. -/
theorem insertMerge_insert_on_miss {V : Type} [DecidableEq V] (key : V → Nat)
    (t : Table V) (x : V) (h : hmLookup t (key x) = none) :
    (insertMerge key t [x]).table = hmInsert t (key x) x ∧
    (insertMerge key t [x]).changes = 1 ∧
    hmLookup (insertMerge key t [x]).table (key x) = some x := by
  have hl : mergeLoop key t [x] = (hmInsert t (key x) x, 1) := by
    simp [mergeLoop, mergeStep, h]
  simp [insertMerge, hl, hmLookup_hmInsert_self]

/-- Witness for C7: inserting station 5 into the empty table. -/
theorem insertMerge_insert_on_miss_witness :
    (hmLookup ([] : Table StationEntry)
        (StationEntry.station_id ⟨5, 1, 2, 3⟩) = none) ∧
    ((StationCache.insert [] [⟨5, 1, 2, 3⟩]).table
        = hmInsert [] (StationEntry.station_id ⟨5, 1, 2, 3⟩) ⟨5, 1, 2, 3⟩ ∧
      (StationCache.insert [] [⟨5, 1, 2, 3⟩]).changes = 1 ∧
      hmLookup (StationCache.insert [] [⟨5, 1, 2, 3⟩]).table
        (StationEntry.station_id ⟨5, 1, 2, 3⟩) = some ⟨5, 1, 2, 3⟩) :=
  ⟨by decide,
    insertMerge_insert_on_miss StationEntry.station_id [] ⟨5, 1, 2, 3⟩ (by decide)⟩

/-- C2, evaluated at the failing input: with Table {1: A, 2: B} and batch
[A, B'] (B' ≠ B), the code reports three changes — one eager `or_insert`
increment per batch entry plus one `and_modify` increment for the real
modification — not the claimed exactly one; the resulting table does store B'
under key 2 and A under key 1 as the claim says. -/
theorem insert_mixed_batch_counts_three :
    ((⟨2, 20, 200, 7⟩ : StationEntry) ≠ ⟨2, 99, 200, 7⟩) ∧
    (StationCache.insert [(1, ⟨1, 10, 100, 5⟩), (2, ⟨2, 20, 200, 7⟩)]
      [⟨1, 10, 100, 5⟩, ⟨2, 99, 200, 7⟩]).changes = 3 ∧
    hmLookup (StationCache.insert [(1, ⟨1, 10, 100, 5⟩), (2, ⟨2, 20, 200, 7⟩)]
      [⟨1, 10, 100, 5⟩, ⟨2, 99, 200, 7⟩]).table 2 = some ⟨2, 99, 200, 7⟩ ∧
    hmLookup (StationCache.insert [(1, ⟨1, 10, 100, 5⟩), (2, ⟨2, 20, 200, 7⟩)]
      [⟨1, 10, 100, 5⟩, ⟨2, 99, 200, 7⟩]).table 1 = some ⟨1, 10, 100, 5⟩ :=
  ⟨by decide, by decide, by decide, by decide⟩

/-! ## C10: duplicate keys within one batch -/

/-- After a merge step for `x`, the value stored under `key x` equals `x`. -/
theorem mergeStep_lookup_self {V : Type} [DecidableEq V] (key : V → Nat)
    (acc : Table V × Nat) (x : V) :
    hmLookup (mergeStep key acc x).1 (key x) = some x := by
  cases hl : hmLookup acc.1 (key x) with
  | none => simp [mergeStep, hl, hmLookup_hmInsert_self]
  | some entry =>
      by_cases he : entry = x
      · subst he
        simp [mergeStep, hl]
      · simp [mergeStep, hl, he, hmLookup_hmInsert_self]

/-- A merge step for `x` does not affect lookups under other keys. -/
theorem mergeStep_lookup_other {V : Type} [DecidableEq V] (key : V → Nat)
    (acc : Table V × Nat) (x : V) (k : Nat) (h : k ≠ key x) :
    hmLookup (mergeStep key acc x).1 k = hmLookup acc.1 k := by
  cases hl : hmLookup acc.1 (key x) with
  | none => simp [mergeStep, hl, hmLookup_hmInsert_ne _ _ _ _ h]
  | some entry =>
      by_cases he : entry = x
      · subst he
        simp [mergeStep, hl]
      · simp [mergeStep, hl, he, hmLookup_hmInsert_ne _ _ _ _ h]

/-- Folding the merge step from the right: the head of the matching entries is
processed last and ends up stored. -/
theorem foldr_mergeStep_lookup_head {V : Type} [DecidableEq V] (key : V → Nat)
    (l : List V) (k : Nat) (e : V)
    (h : (l.filter (fun x => key x == k)).head? = some e) :
    ∀ acc : Table V × Nat,
      hmLookup (l.foldr (fun x s => mergeStep key s x) acc).1 k = some e := by
  induction l with
  | nil => simp at h
  | cons a rest ih =>
      intro acc
      rw [List.filter_cons] at h
      by_cases hak : key a = k
      · have hb : (key a == k) = true := by simp [hak]
        rw [if_pos hb] at h
        simp only [List.head?_cons, Option.some.injEq] at h
        rw [List.foldr_cons]
        subst h
        rw [← hak]
        exact mergeStep_lookup_self key _ a
      · have hb : ¬ ((key a == k) = true) := by simp [hak]
        rw [if_neg hb] at h
        rw [List.foldr_cons,
          mergeStep_lookup_other key _ a k (fun he => hak he.symm)]
        exact ih h acc

/-- The merge loop is a right fold over the batch: `pop` drains the vector
from the back, so the listed order is processed in reverse. -/
theorem mergeLoop_eq_foldr {V : Type} [DecidableEq V] (key : V → Nat)
    (t : Table V) (data : List V) :
    mergeLoop key t data = data.foldr (fun x s => mergeStep key s x) (t, 0) := by
  unfold mergeLoop
  rw [List.foldl_reverse]

/-- The change counter never decreases along the merge loop. -/
theorem foldl_mergeStep_changes_le {V : Type} [DecidableEq V] (key : V → Nat)
    (l : List V) :
    ∀ acc : Table V × Nat, acc.2 ≤ (l.foldl (mergeStep key) acc).2 := by
  induction l with
  | nil => intro acc; exact Nat.le_refl _
  | cons a rest ih =>
      intro acc
      rw [List.foldl_cons]
      exact Nat.le_trans (mergeStep_changes_le key acc a) (ih _)

/-- A merge loop that reports no new changes leaves the state untouched. -/
theorem foldl_mergeStep_changes_eq {V : Type} [DecidableEq V] (key : V → Nat)
    (l : List V) :
    ∀ acc : Table V × Nat, (l.foldl (mergeStep key) acc).2 = acc.2 →
      l.foldl (mergeStep key) acc = acc := by
  induction l with
  | nil => intro acc _; rfl
  | cons a rest ih =>
      intro acc h
      rw [List.foldl_cons] at h ⊢
      have hle1 : acc.2 ≤ (mergeStep key acc a).2 := mergeStep_changes_le key acc a
      have h2 : (mergeStep key acc a).2 = acc.2 :=
        Nat.le_antisymm
          (le_of_le_of_eq (foldl_mergeStep_changes_le key rest _) h) hle1
      have hstep : mergeStep key acc a = acc :=
        mergeStep_eq_of_changes_eq key acc a h2
      rw [hstep] at h ⊢
      exact ih acc h

/-- The final table of an insert-merge call always agrees with the merge loop
result: when no change was counted the loop did not modify its clone, so not
swapping it in yields the same table. -/
theorem insertMerge_table_eq_mergeLoop {V : Type} [DecidableEq V] (key : V → Nat)
    (t : Table V) (data : List V) :
    (insertMerge key t data).table = (mergeLoop key t data).1 := by
  by_cases h : (mergeLoop key t data).2 > 0
  · simp [insertMerge, h]
  · have h0 : (mergeLoop key t data).2 = 0 := Nat.eq_zero_of_not_pos h
    have hid : mergeLoop key t data = (t, 0) := by
      unfold mergeLoop at h0 ⊢
      exact foldl_mergeStep_changes_eq key data.reverse (t, 0) h0
    simp [insertMerge, hid]

/-- C10: when an insert batch lists several entries under the same key, the
record finally stored under that key is the one appearing earliest in the
vector — the batch is drained from the back by `pop`, so the first-listed
entry is processed last and wins. -/
theorem insertMerge_first_duplicate_wins {V : Type} [DecidableEq V] (key : V → Nat)
    (t : Table V) (batch : List V) (k : Nat) (e : V)
    (hdup : 2 ≤ (batch.filter (fun x => key x == k)).length)
    (hfirst : (batch.filter (fun x => key x == k)).head? = some e) :
    hmLookup (insertMerge key t batch).table k = some e := by
  rw [insertMerge_table_eq_mergeLoop, mergeLoop_eq_foldr]
  exact foldr_mergeStep_lookup_head key batch k e hfirst (t, 0)

/-- Witness for C10: two station entries with station id 1 in one batch; the
first-listed one ends up stored. -/
theorem insertMerge_first_duplicate_wins_witness :
    2 ≤ (([⟨1, 10, 0, 0⟩, ⟨1, 20, 0, 0⟩] : List StationEntry).filter
        (fun x => StationEntry.station_id x == 1)).length ∧
    (([⟨1, 10, 0, 0⟩, ⟨1, 20, 0, 0⟩] : List StationEntry).filter
        (fun x => StationEntry.station_id x == 1)).head? = some ⟨1, 10, 0, 0⟩ ∧
    hmLookup (StationCache.insert [] [⟨1, 10, 0, 0⟩, ⟨1, 20, 0, 0⟩]).table 1
        = some ⟨1, 10, 0, 0⟩ :=
  ⟨by decide, by decide,
    insertMerge_first_duplicate_wins StationEntry.station_id []
      [⟨1, 10, 0, 0⟩, ⟨1, 20, 0, 0⟩] 1 ⟨1, 10, 0, 0⟩ (by decide) (by decide)⟩

/-! ## C5: load failure is a cold start, not an error -/

/-- C5: when the backing file is absent, unreadable, or fails to decode (a
failed read of the snapshot), loading reports success and yields the empty
table: unconditionally for the id-name cache, and for the station cache
started from its default (empty) state, which load leaves untouched. -/
theorem load_failure_yields_empty (err : String) :
    IdNameCache.load (Except.error err) = ([], true) ∧
    StationCache.load [] (Except.error err) = ([], true) :=
  ⟨rfl, rfl⟩

/-- Witness for C5 at a concrete error value. -/
theorem load_failure_yields_empty_witness :
    IdNameCache.load (Except.error ("no such file")) = ([], true) ∧
    StationCache.load [] (Except.error ("no such file")) = ([], true) :=
  load_failure_yields_empty "no such file"

/-! ## C3: save/load round trip -/

theorem hmLookup_cons_eq {V : Type} (a : Nat) (b : V) (rest : Table V) :
    hmLookup ((a, b) :: rest) a = some b := by
  simp [hmLookup]

theorem hmLookup_cons_ne {V : Type} (a : Nat) (b : V) (rest : Table V) (k : Nat)
    (h : ¬ a = k) : hmLookup ((a, b) :: rest) k = hmLookup rest k := by
  simp [hmLookup, h]

theorem hmLookup_append_none {V : Type} (m m' : Table V) (k : Nat)
    (h : hmLookup m k = none) : hmLookup (m ++ m') k = hmLookup m' k := by
  induction m with
  | nil => rfl
  | cons p rest ih =>
      obtain ⟨a, b⟩ := p
      by_cases hp : a = k
      · subst hp
        rw [hmLookup_cons_eq] at h
        exact absurd h (by simp)
      · rw [List.cons_append, hmLookup_cons_ne a b _ k hp]
        rw [hmLookup_cons_ne a b rest k hp] at h
        exact ih h

theorem hmInsert_append_of_lookup_none {V : Type} (m : Table V) (k : Nat) (v : V)
    (h : hmLookup m k = none) : hmInsert m k v = m ++ [(k, v)] := by
  induction m with
  | nil => rfl
  | cons p rest ih =>
      obtain ⟨a, b⟩ := p
      by_cases hp : a = k
      · subst hp
        rw [hmLookup_cons_eq] at h
        exact absurd h (by simp)
      · rw [hmLookup_cons_ne a b rest k hp] at h
        have : hmInsert ((a, b) :: rest) k v = (a, b) :: hmInsert rest k v := by
          simp [hmInsert, hp]
        rw [this, ih h, List.cons_append]

/-- In a table with pairwise distinct keys, a lookup finds exactly the pairs
the table contains. -/
theorem hmLookup_eq_some_iff_mem {V : Type} (m : Table V) (k : Nat) (v : V)
    (hnd : (hmKeys m).Nodup) : hmLookup m k = some v ↔ (k, v) ∈ m := by
  induction m with
  | nil => simp [hmLookup]
  | cons p rest ih =>
      obtain ⟨a, b⟩ := p
      simp only [hmKeys, List.map_cons, List.nodup_cons] at hnd
      obtain ⟨hp, hrest⟩ := hnd
      by_cases h : a = k
      · subst h
        rw [hmLookup_cons_eq]
        simp only [List.mem_cons, Option.some.injEq, Prod.mk.injEq, true_and]
        constructor
        · intro hv
          exact Or.inl hv.symm
        · rintro (hh | hh)
          · exact hh.symm
          · exact absurd (List.mem_map_of_mem Prod.fst hh) hp
      · rw [hmLookup_cons_ne a b rest k h, ih hrest]
        simp only [List.mem_cons, Prod.mk.injEq]
        constructor
        · intro hv
          exact Or.inr hv
        · rintro (⟨hh, _⟩ | hh)
          · exact absurd hh.symm h
          · exact hh

/-- Rebuilding a map from entries with pairwise distinct keys yields exactly
the association list of key/entry pairs, in listed order. -/
theorem loadEntries_eq_of_nodup {V : Type} (key : V → Nat) (l : List V)
    (h : (l.map key).Nodup) :
    loadEntries key l = l.map (fun e => (key e, e)) := by
  suffices haux : ∀ acc : Table V, (∀ e ∈ l, hmLookup acc (key e) = none) →
      l.foldl (fun m e => hmInsert m (key e) e) acc
        = acc ++ l.map (fun e => (key e, e)) by
    simpa [loadEntries] using haux [] (fun e _ => rfl)
  induction l with
  | nil =>
      intro acc _
      simp
  | cons a rest ih =>
      intro acc hacc
      rw [List.map_cons, List.nodup_cons] at h
      obtain ⟨ha, hrest⟩ := h
      have hstep : hmInsert acc (key a) a = acc ++ [(key a, a)] :=
        hmInsert_append_of_lookup_none acc (key a) a (hacc a (by simp))
      have hrec : ∀ e ∈ rest, hmLookup (acc ++ [(key a, a)]) (key e) = none := by
        intro e he
        rw [hmLookup_append_none acc _ _ (hacc e (List.mem_cons_of_mem a he))]
        have hne : ¬ key a = key e :=
          fun hh => ha (hh ▸ List.mem_map_of_mem key he)
        rw [hmLookup_cons_ne (key a) a [] (key e) hne]
        rfl
      rw [List.foldl_cons, hstep, ih hrest (acc ++ [(key a, a)]) hrec]
      simp

theorem option_eq_of_some_iff {α : Type} {a b : Option α}
    (h : ∀ v : α, a = some v ↔ b = some v) : a = b := by
  cases a with
  | none =>
      cases b with
      | none => rfl
      | some v => exact absurd ((h v).mpr rfl) (by simp)
  | some v => exact ((h v).mp rfl).symm

/-- C3: saving a station table with pairwise distinct keys (which, for every
reachable table, are exactly the station ids of the stored records) and
loading from the written sequence — in whatever order the map iteration
produced it — rebuilds a table with the same key set and equal records:
every lookup agrees with the original table. -/
theorem save_load_round_trip (t : Table StationEntry) (l : List StationEntry)
    (hwf : ∀ p ∈ t, p.1 = p.2.station_id)
    (hnd : (hmKeys t).Nodup)
    (hperm : l.Perm (StationCache.save t)) :
    ∀ k : Nat,
      hmLookup (StationCache.load [] (Except.ok l)).1 k = hmLookup t k := by
  intro k
  have hmapt : (StationCache.save t).map StationEntry.station_id = hmKeys t := by
    unfold StationCache.save hmKeys
    rw [List.map_map]
    exact List.map_congr_left (fun p hp => (hwf p hp).symm)
  have hndl : (l.map StationEntry.station_id).Nodup := by
    have hp2 : (l.map StationEntry.station_id).Perm (hmKeys t) := by
      rw [← hmapt]
      exact hperm.map StationEntry.station_id
    exact hp2.nodup_iff.mpr hnd
  have hload : (StationCache.load [] (Except.ok l)).1
      = l.map (fun e => (e.station_id, e)) := by
    show loadEntries StationEntry.station_id l = _
    exact loadEntries_eq_of_nodup StationEntry.station_id l hndl
  rw [hload]
  have hndk : (hmKeys (l.map (fun e => (e.station_id, e)))).Nodup := by
    unfold hmKeys
    rw [List.map_map]
    exact hndl
  apply option_eq_of_some_iff
  intro v
  rw [hmLookup_eq_some_iff_mem _ _ _ hndk, hmLookup_eq_some_iff_mem _ _ _ hnd]
  constructor
  · intro hv
    rw [List.mem_map] at hv
    obtain ⟨e, hel, heq⟩ := hv
    have he1 : e.station_id = k := congrArg Prod.fst heq
    have he2 : e = v := congrArg Prod.snd heq
    subst he2
    have hvmem : e ∈ StationCache.save t := hperm.mem_iff.mp hel
    unfold StationCache.save at hvmem
    rw [List.mem_map] at hvmem
    obtain ⟨p, hpt, hpv⟩ := hvmem
    have hp1 : p.1 = k := by
      rw [hwf p hpt, hpv, he1]
    have : p = (k, e) := by
      rw [Prod.ext_iff]
      exact ⟨hp1, hpv⟩
    rw [← this]
    exact hpt
  · intro hv
    have hsv : v ∈ StationCache.save t := by
      unfold StationCache.save
      exact List.mem_map_of_mem Prod.snd hv
    have hvl : v ∈ l := hperm.mem_iff.mpr hsv
    rw [List.mem_map]
    refine ⟨v, hvl, ?_⟩
    have hkv : k = v.station_id := hwf (k, v) hv
    rw [← hkv]

/-- Witness for C3: a two-station table saved and reloaded from the reversed
entry sequence. -/
theorem save_load_round_trip_witness :
    (∀ p ∈ [((1 : Nat), (⟨1, 10, 100, 5⟩ : StationEntry)), (2, ⟨2, 20, 200, 7⟩)],
      p.1 = p.2.station_id) ∧
    (hmKeys [((1 : Nat), (⟨1, 10, 100, 5⟩ : StationEntry)),
      (2, ⟨2, 20, 200, 7⟩)]).Nodup ∧
    ([⟨2, 20, 200, 7⟩, ⟨1, 10, 100, 5⟩] : List StationEntry).Perm
      (StationCache.save [(1, ⟨1, 10, 100, 5⟩), (2, ⟨2, 20, 200, 7⟩)]) ∧
    ∀ k : Nat,
      hmLookup (StationCache.load []
        (Except.ok [⟨2, 20, 200, 7⟩, ⟨1, 10, 100, 5⟩])).1 k
      = hmLookup [(1, ⟨1, 10, 100, 5⟩), (2, ⟨2, 20, 200, 7⟩)] k :=
  ⟨by decide, by decide, by decide,
    save_load_round_trip [(1, ⟨1, 10, 100, 5⟩), (2, ⟨2, 20, 200, 7⟩)]
      [⟨2, 20, 200, 7⟩, ⟨1, 10, 100, 5⟩] (by decide) (by decide) (by decide)⟩

/-! ## C6: get on a missing key is Empty, on a present key a clone -/

/-- C6: fetching an absent key answers `EmptyResponse` (an absent-value
result), not a failure of the cache; fetching a present key answers a clone of
the stored record.  `ItemCache::get` likewise answers exactly the stored
entry, if any.  All three operations only read the table, which the embedding
reflects by returning a response without any table: the table is unchanged. -/
theorem fetch_semantics (t : Table StationEntry) (k k' : Nat) (v : StationEntry)
    (ti : Table ItemEntry)
    (hmiss : hmLookup t k = none) (hhit : hmLookup t k' = some v) :
    StationCache.fetch t k = Except.error ⟨⟩ ∧
    StationCache.fetch t k' = Except.ok v ∧
    ItemCache.get ti k = hmLookup ti k := by
  refine ⟨?_, ?_, rfl⟩
  · unfold StationCache.fetch
    rw [hmiss]
  · unfold StationCache.fetch
    rw [hhit]

/-- Witness for C6: a one-station table, key 2 absent, key 1 present. -/
theorem fetch_semantics_witness :
    hmLookup [((1 : Nat), (⟨1, 10, 100, 5⟩ : StationEntry))] 2 = none ∧
    hmLookup [((1 : Nat), (⟨1, 10, 100, 5⟩ : StationEntry))] 1
      = some ⟨1, 10, 100, 5⟩ ∧
    (StationCache.fetch [(1, ⟨1, 10, 100, 5⟩)] 2 = Except.error ⟨⟩ ∧
      StationCache.fetch [(1, ⟨1, 10, 100, 5⟩)] 1 = Except.ok ⟨1, 10, 100, 5⟩ ∧
      ItemCache.get [] 2 = hmLookup [] 2) :=
  ⟨by decide, by decide,
    fetch_semantics [(1, ⟨1, 10, 100, 5⟩)] 2 1 ⟨1, 10, 100, 5⟩ []
      (by decide) (by decide)⟩

/-- C8: the cnc listener calls `save()` if and only if the observed signal is
`Save`; any other signal causes no save, and in every case the table is left
unchanged. -/
theorem cnc_listener_save_iff (t : Table ItemEntry) (cmd : Command) :
    ((ItemCache.cncStep t cmd).2 = true ↔ cmd = Command.Save) ∧
    (ItemCache.cncStep t cmd).1 = t := by
  cases cmd <;> simp [ItemCache.cncStep]

theorem KeyWF_hmInsert {V : Type} (key : V → Nat) (t : Table V) (v : V)
    (ht : KeyWF key t) : KeyWF key (hmInsert t (key v) v) := by
  induction t with
  | nil =>
      intro p hp
      simp only [hmInsert, List.mem_singleton] at hp
      subst hp
      rfl
  | cons q rest ih =>
      obtain ⟨a, b⟩ := q
      have hrest : KeyWF key rest := fun p hp => ht p (List.mem_cons_of_mem _ hp)
      by_cases h : a = key v
      · intro p hp
        rw [show hmInsert ((a, b) :: rest) (key v) v = (key v, v) :: rest from by
          simp [hmInsert, h]] at hp
        rcases List.mem_cons.mp hp with hh | hh
        · subst hh
          rfl
        · exact hrest p hh
      · intro p hp
        rw [show hmInsert ((a, b) :: rest) (key v) v
            = (a, b) :: hmInsert rest (key v) v from by simp [hmInsert, h]] at hp
        rcases List.mem_cons.mp hp with hh | hh
        · subst hh
          exact ht (a, b) (by simp)
        · exact ih hrest p hh

theorem KeyWF_mergeStep {V : Type} [DecidableEq V] (key : V → Nat)
    (acc : Table V × Nat) (x : V) (h : KeyWF key acc.1) :
    KeyWF key (mergeStep key acc x).1 := by
  cases hl : hmLookup acc.1 (key x) with
  | none => simpa [mergeStep, hl] using KeyWF_hmInsert key acc.1 x h
  | some entry =>
      by_cases he : entry = x
      · simpa [mergeStep, hl, he] using h
      · simpa [mergeStep, hl, he] using KeyWF_hmInsert key acc.1 x h

theorem KeyWF_foldl_mergeStep {V : Type} [DecidableEq V] (key : V → Nat)
    (l : List V) :
    ∀ acc : Table V × Nat, KeyWF key acc.1 →
      KeyWF key (l.foldl (mergeStep key) acc).1 := by
  induction l with
  | nil =>
      intro acc h
      exact h
  | cons a rest ih =>
      intro acc h
      rw [List.foldl_cons]
      exact ih _ (KeyWF_mergeStep key acc a h)

theorem KeyWF_insertMerge {V : Type} [DecidableEq V] (key : V → Nat)
    (t : Table V) (data : List V) (h : KeyWF key t) :
    KeyWF key (insertMerge key t data).table := by
  rw [insertMerge_table_eq_mergeLoop]
  unfold mergeLoop
  exact KeyWF_foldl_mergeStep key data.reverse (t, 0) h

theorem KeyWF_loadEntries {V : Type} (key : V → Nat) (l : List V) :
    KeyWF key (loadEntries key l) := by
  suffices haux : ∀ acc : Table V, KeyWF key acc →
      KeyWF key (l.foldl (fun m e => hmInsert m (key e) e) acc) from
    haux [] (fun p hp => absurd hp (List.not_mem_nil p))
  induction l with
  | nil =>
      intro acc h
      exact h
  | cons a rest ih =>
      intro acc h
      rw [List.foldl_cons]
      exact ih _ (KeyWF_hmInsert key acc a h)

/-- C9: in every reachable station-cache state — any sequence of load and
insert operations applied to the default empty table — every key of the map
equals the `station_id` field of the record stored under it. -/
theorem station_reachable_key_invariant (ops : List StationOp)
    (p : Nat × StationEntry) (hp : p ∈ StationCache.run ops) :
    p.1 = p.2.station_id := by
  suffices hwf : KeyWF StationEntry.station_id (StationCache.run ops) from hwf p hp
  unfold StationCache.run
  have hstep : ∀ (l : List StationOp) (t : Table StationEntry),
      KeyWF StationEntry.station_id t →
      KeyWF StationEntry.station_id (l.foldl StationCache.applyOp t) := by
    intro l
    induction l with
    | nil =>
        intro t h
        exact h
    | cons op rest ih =>
        intro t h
        rw [List.foldl_cons]
        apply ih
        cases op with
        | load r =>
            cases r with
            | ok entries =>
                simpa [StationCache.applyOp, StationCache.load] using
                  KeyWF_loadEntries StationEntry.station_id entries
            | error e =>
                simpa [StationCache.applyOp, StationCache.load] using h
        | insert batch =>
            simpa [StationCache.applyOp, StationCache.insert] using
              KeyWF_insertMerge StationEntry.station_id t batch h
  exact hstep ops [] (fun p hp => absurd hp (List.not_mem_nil p))

/-- Witness for C9: the state reached by one insert of station 5. -/
theorem station_reachable_key_invariant_witness :
    ((5 : Nat), (⟨5, 1, 2, 3⟩ : StationEntry)) ∈
      StationCache.run [StationOp.insert [⟨5, 1, 2, 3⟩]] ∧
    (5 : Nat) = (⟨5, 1, 2, 3⟩ : StationEntry).station_id :=
  ⟨by decide,
    station_reachable_key_invariant [StationOp.insert [⟨5, 1, 2, 3⟩]]
      (5, ⟨5, 1, 2, 3⟩) (by decide)⟩

/-! ## C4: unchanged writes and persistence -/

/-- C4 counterexample: in the db_v2 item cache, a `Set` request whose incoming
entry equals (full value equality) the entry already stored under the same key
still triggers persistence: the `Command::Set` arm of `ItemCache::handle`
calls `save()` unconditionally after `set`, so "no persistence on unchanged
writes" fails for this cache. -/
theorem handleSet_saves_despite_no_change :
    hmLookup [((34 : Nat), (⟨4, 18, 34, 1, "Tritanium", "ore"⟩ : ItemEntry))] 34
      = some ⟨4, 18, 34, 1, "Tritanium", "ore"⟩ ∧
    (ItemCache.handleSet [(34, ⟨4, 18, 34, 1, "Tritanium", "ore"⟩)] 34
      ⟨4, 18, 34, 1, "Tritanium", "ore"⟩).2 = true :=
  ⟨by decide, rfl⟩

/-- C4 amended: no cache skips persistence on an unchanged write: the db_v2
`ItemCache` calls `save()` on every `Set` request unconditionally, and in the
db crate's insert-merge caches the eagerly evaluated `or_insert` argument
counts every batch entry as a change, so any non-empty batch — even one whose
entries all equal the stored ones — ends with a positive change count and the
map swap that publishes the state for persistence. -/
theorem unchanged_write_persistence (V : Type) [DecidableEq V] (key : V → Nat)
    (t : Table V) (batch : List V) (hne : batch ≠ [])
    (ti : Table ItemEntry) (k : Nat) (v : ItemEntry) :
    (ItemCache.handleSet ti k v).2 = true ∧
    (insertMerge key t batch).swapped = true := by
  refine ⟨rfl, ?_⟩
  have hlen : 1 ≤ batch.length := by
    cases batch with
    | nil => exact absurd rfl hne
    | cons a rest => simp
  have hge : 0 + batch.length ≤ (batch.reverse.foldl (mergeStep key) (t, 0)).2 := by
    have h := foldl_mergeStep_changes_ge_length key batch.reverse (t, 0)
    rwa [List.length_reverse] at h
  have hpos : (mergeLoop key t batch).2 > 0 := by
    unfold mergeLoop
    omega
  simp [insertMerge, hpos]

/-- Witness for C4's amended statement: a one-entry station batch identical to
the stored entry still swaps, and a Set on the item cache always saves. -/
theorem unchanged_write_persistence_witness :
    ([(⟨7, 11, 12, 13⟩ : StationEntry)] ≠ ([] : List StationEntry)) ∧
    ((ItemCache.handleSet [] 1 ⟨4, 18, 34, 1, "Tritanium", "ore"⟩).2 = true ∧
      (insertMerge StationEntry.station_id [(7, ⟨7, 11, 12, 13⟩)]
        [⟨7, 11, 12, 13⟩]).swapped = true) :=
  ⟨by decide,
    unchanged_write_persistence StationEntry StationEntry.station_id
      [(7, ⟨7, 11, 12, 13⟩)] [⟨7, 11, 12, 13⟩] (by decide) [] 1
      ⟨4, 18, 34, 1, "Tritanium", "ore"⟩⟩

end Cachem
